import Mathlib

/-!
Shallow embedding of the graph utilities of this repository
(`src/datasets.py` and `src/graphs.py`) and proofs of the spec's claims.

Modelling conventions:
* Python exceptions become the `PyErr` inductive; the two distinct
  `ValueError` messages of `get_neighborhood_indices` are mapped to the
  spec's taxonomy names `indexOutOfBounds` / `invalidArgument`, and the
  two `ValueError`s of `create_connected_graph` to `invalidArgument`.
* Python floats (`edge_probability`, the values returned by
  `random.random()`) are modelled as rationals; `random.random()` returns
  a value in `[0, 1)`.
* A Python `set` is modelled as a duplicate-free list built with
  `setInsert` (a set is only observed through membership and through
  `sorted(...)`, so the insertion order is immaterial); `sorted(...)`
  is `List.insertionSort (· ≤ ·)`.
* The stream of random draws consumed by `create_connected_graph`
  (`random.random()`, `random.sample`, `random.choice`) is an explicit
  oracle `Draws`; raw oracle values are reduced modulo the size of the
  range they select from, which realises exactly the possible outcomes
  of `random.sample(range(m), 2)` and `random.choice(list)`.
* A scipy CSC sparse matrix is modelled structurally: for each column,
  the list of row indices of its stored entries (`indptr`/`indices`).
* `networkx` connected components are computed by an executable
  union-find style fold `comps` over the edge list; the order of the
  blocks is immaterial because the component selection in the repair
  loop ranges over all indices via the oracle.
-/

namespace AAPPR

/-- Error taxonomy of the spec, naming the distinct `raise ValueError`
sites of the code by their messages. -/
inductive PyErr where
  | indexOutOfBounds
  | invalidArgument
  deriving DecidableEq, Repr

/-- Insertion into a Python `set` modelled as a duplicate-free list:
adding an already-present element is a no-op. -/
def setInsert {α : Type} [DecidableEq α] (s : List α) (x : α) : List α :=
  if x ∈ s then s else s ++ [x]

/-! ### CSC sparse matrices and `get_neighborhood_indices` (src/graphs.py) -/

/-- Structural model of a square scipy CSC sparse matrix: `cols[j]` is
the list of row indices of the stored entries of column `j`
(`adj_mat.indices[adj_mat.indptr[j] : adj_mat.indptr[j+1]]`). -/
structure CSCMat where
  cols : List (List Nat)
  deriving Repr

/-- `adj_mat.shape[0]` for a square matrix. -/
def CSCMat.n (m : CSCMat) : Nat := m.cols.length

/-- Well-formedness of a scipy CSC matrix: every stored row index is
inside the matrix. -/
def CSCMat.Valid (m : CSCMat) : Prop := ∀ c ∈ m.cols, ∀ r ∈ c, r < m.n

/-- `max(l)` on a non-empty Python list. -/
def maxList (l : List Int) : Int :=
  match l with
  | [] => 0
  | x :: xs => xs.foldl max x

/-- `min(l)` on a non-empty Python list. -/
def minList (l : List Int) : Int :=
  match l with
  | [] => 0
  | x :: xs => xs.foldl min x

/-- The neighborhood accumulation loop of `get_neighborhood_indices`:
starting from `set(indices)`, union in the structural column entries of
each seed. -/
def nbrAccum (indices : List Int) (adj_mat : CSCMat) : List Int :=
  indices.foldl
    (fun s idx =>
      ((adj_mat.cols.getD idx.toNat []).map Int.ofNat).foldl setInsert s)
    (indices.foldl setInsert [])

/-- `get_neighborhood_indices(indices, adj_mat)` from `src/graphs.py`:
validate the seed indices (out-of-bounds check first, then negativity),
return `[]` for an empty seed list, otherwise union the seeds with the
structural column entries of each seed and return the sorted
duplicate-free list. -/
def get_neighborhood_indices (indices : List Int) (adj_mat : CSCMat) :
    Except PyErr (List Int) :=
  let num_nodes : Int := adj_mat.n
  if indices ≠ [] ∧ num_nodes ≤ maxList indices then
    .error .indexOutOfBounds
  else if indices ≠ [] ∧ minList indices < 0 then
    .error .invalidArgument
  else if indices = [] then
    .ok []
  else
    .ok (List.insertionSort (· ≤ ·) (nbrAccum indices adj_mat))

/-! ### `loadsnap` (src/datasets.py)

The file is modelled as its list of lines.  Line processing
(`strip`, `startswith('#')`, `split()`, `int(...)`) is implemented
structurally over `List Char` so that everything reduces. -/

/-- Tokeniser modelling Python `str.split()` (split on runs of
whitespace, discarding empty tokens); `acc` holds the current token
reversed. -/
def splitWsAux : List Char → List Char → List (List Char)
  | [], acc => if acc = [] then [] else [acc.reverse]
  | c :: cs, acc =>
    if c.isWhitespace then
      if acc = [] then splitWsAux cs [] else acc.reverse :: splitWsAux cs []
    else
      splitWsAux cs (c :: acc)

/-- Python `line.split()`. -/
def splitWs (cs : List Char) : List (List Char) := splitWsAux cs []

/-- Digit-string parser: `some` of the value when the token is a
non-empty all-digit string. -/
def parseDigits (cs : List Char) : Option Nat :=
  if cs ≠ [] ∧ cs.all Char.isDigit then
    some (cs.foldl (fun a c => a * 10 + (c.toNat - 48)) 0)
  else
    none

/-- Model of Python `int(token)` on a `split()` token: optional sign
followed by digits; anything else raises `ValueError` (here `none`). -/
def parseInt (cs : List Char) : Option Int :=
  match cs with
  | '-' :: rest => (parseDigits rest).map (fun m => -(m : Int))
  | '+' :: rest => (parseDigits rest).map (fun m => (m : Int))
  | _ => (parseDigits cs).map (fun m => (m : Int))

/-- Python `line.strip()`. -/
def stripLine (cs : List Char) : List Char :=
  ((cs.dropWhile Char.isWhitespace).reverse.dropWhile Char.isWhitespace).reverse

/-- One iteration of the read loop of `loadsnap`: returns the parsed
pair `(u, v)` of the line, or `none` when the line is a comment, blank,
malformed, or has non-integer node tokens (such lines are skipped). -/
def parseLine (line : List Char) : Option (Int × Int) :=
  let t := stripLine line
  if t.headD ' ' = '#' ∨ t = [] then none
  else
    let parts := splitWs t
    if parts.length < 2 then none
    else
      match parseInt (parts.getD 0 []), parseInt (parts.getD 1 []) with
      | some u, some v => some (u, v)
      | _, _ => none

/-- The `edges_to_add` set of `loadsnap`: canonical `(min, max)` pairs
of the successfully parsed non-self-loop lines; set semantics collapse
duplicates. -/
def edges_to_add (lines : List String) : List (Int × Int) :=
  lines.foldl
    (fun s line =>
      match parseLine line.toList with
      | some (u, v) => if u ≠ v then setInsert s (min u v, max u v) else s
      | none => s) []

/-- The `all_nodes` set of `loadsnap`: all endpoints of the retained
edges. -/
def all_nodes (lines : List String) : List Int :=
  (edges_to_add lines).foldl (fun s e => setInsert (setInsert s e.1) e.2) []

/-- The sorted node list of `loadsnap` (`sorted(list(all_nodes))`),
which fixes the row/column order of the matrices. -/
def node_list (lines : List String) : List Int :=
  List.insertionSort (· ≤ ·) (all_nodes lines)

/-- Entry `(i, j)` of the adjacency matrix returned by `loadsnap`:
rows/columns follow `node_list`, and the entry is 1 exactly when the
canonical pair of the two node identifiers is a retained edge. -/
def snapAdj (lines : List String) (i j : Nat) : Nat :=
  if (min ((node_list lines).getD i 0) ((node_list lines).getD j 0),
      max ((node_list lines).getD i 0) ((node_list lines).getD j 0)) ∈
      edges_to_add lines
  then 1 else 0

/-- Diagonal entry `i` of the degree matrix returned by `loadsnap`:
the sum of row `i` of the adjacency matrix. -/
def snapDeg (lines : List String) (i : Nat) : Nat :=
  ∑ j ∈ Finset.range (node_list lines).length, snapAdj lines i j

/-! ### `create_connected_graph` (src/graphs.py)

Randomness is an explicit oracle.  `edge i j` is the value of
`random.random()` for the pair `(i, j)`; `pickA`/`pickB` are the raw
values behind `random.sample(range(len(components)), 2)` at a given
repair iteration, and `nodeA`/`nodeB` those behind the two
`random.choice` calls. -/

/-- Oracle for every random draw consumed by `create_connected_graph`. -/
structure Draws where
  edge : Nat → Nat → ℚ
  pickA : Nat → Nat
  pickB : Nat → Nat
  nodeA : Nat → Nat
  nodeB : Nat → Nat

/-- A draw oracle whose `random.random()` values are legal float
outputs: each lies in `[0, 1)`. -/
def Draws.Valid (d : Draws) : Prop :=
  ∀ i j, 0 ≤ d.edge i j ∧ d.edge i j < 1

/-- The iteration order of the sampling loops
`for i in range(n): for j in range(i+1, n)`. -/
def pairList (n : Nat) : List (Nat × Nat) :=
  (List.range n).flatMap
    (fun i => (List.range' (i + 1) (n - (i + 1))).map (fun j => (i, j)))

/-- The Bernoulli sampling phase: the pair `(i, j)` becomes an edge
exactly when `random.random() <= edge_probability`. -/
def initEdges (n : Nat) (p : ℚ) (d : Draws) : List (Nat × Nat) :=
  (pairList n).filter (fun e => d.edge e.1 e.2 ≤ p)

/-- Union-find merge step on a component labelling: when the endpoints
carry distinct labels, relabel `v`'s whole class with `u`'s label. -/
def mergeLab (lab : List Nat) (u v : Nat) : List Nat :=
  if lab.getD u 0 = lab.getD v 0 then lab
  else lab.map (fun t => if t = lab.getD v 0 then lab.getD u 0 else t)

/-- The component label of every node of the graph with node set
`range n` and the given edge list: start from the identity labelling
and merge along every edge. -/
def labels (n : Nat) (es : List (Nat × Nat)) : List Nat :=
  es.foldl (fun lab e => mergeLab lab e.1 e.2) (List.range n)

/-- Executable model of `list(nx.connected_components(g))`: one block
per distinct label (in order of first appearance), each block listing
the nodes of that component in increasing order. -/
def comps (n : Nat) (es : List (Nat × Nat)) : List (List Nat) :=
  (labels n es).dedup.map
    (fun c => (List.range n).filter (fun x => (labels n es).getD x 0 == c))

/-- Model of `nx.is_connected(g)`: the decomposition has exactly one
component. -/
def is_connected (n : Nat) (es : List (Nat × Nat)) : Bool :=
  (comps n es).length == 1

/-- One iteration of the connectivity-repair loop body: pick two
distinct component indices (`random.sample(range(m), 2)`), one node
from each component (`random.choice`), and return the edge to add. -/
def repairStep (d : Draws) (k : Nat) (bs : List (List Nat)) : Nat × Nat :=
  let m := bs.length
  let i := d.pickA k % m
  let j0 := d.pickB k % (m - 1)
  let j := if j0 < i then j0 else j0 + 1
  let b1 := bs.getD i []
  let b2 := bs.getD j []
  (b1.getD (d.nodeA k % b1.length) 0, b2.getD (d.nodeB k % b2.length) 0)

/-- The connectivity-repair loop (`while not nx.is_connected(g)`), with
the loop's own `if len(components) <= 1: break` safety check folded into
the guard; `k` counts the merges performed so far and `fuel` bounds the
iterations (the code's loop needs none, and the theorems show the fuel
passed by `create_connected_graph` is never exhausted). -/
def repair (d : Draws) (n : Nat) :
    Nat → List (Nat × Nat) → Nat → List (Nat × Nat) × Nat
  | 0, es, k => (es, k)
  | fuel + 1, es, k =>
    let bs := comps n es
    if bs.length ≤ 1 then (es, k)
    else
      let e := repairStep d k bs
      repair d n fuel (es ++ [e]) (k + 1)

/-- The graph produced by `create_connected_graph`: its node list
(`g.add_nodes_from(range(n))`), its final edge list, and the number of
repair merges performed. -/
structure GenResult where
  nodes : List Nat
  edges : List (Nat × Nat)
  merges : Nat
  deriving Repr, DecidableEq

/-- `create_connected_graph(n, edge_probability)` from `src/graphs.py`:
validate `edge_probability` then `n`, sample every pair `(i, j)` with
`i < j`, then repair connectivity by repeatedly joining two random
distinct components. -/
def create_connected_graph (n : Nat) (edge_probability : ℚ) (d : Draws) :
    Except PyErr GenResult :=
  if ¬(0 ≤ edge_probability ∧ edge_probability ≤ 1) then
    .error .invalidArgument
  else if n < 1 then
    .error .invalidArgument
  else
    let r := repair d n n (initEdges n edge_probability d) 0
    .ok ⟨List.range n, r.1, r.2⟩

/-- Entry `(i, j)` of the adjacency matrix of a generated graph: 1 when
the undirected edge is present, 0 otherwise. -/
def genAdj (es : List (Nat × Nat)) (i j : Nat) : Nat :=
  if (i, j) ∈ es ∨ (j, i) ∈ es then 1 else 0

instance {ε α : Type} [DecidableEq ε] [DecidableEq α] :
    DecidableEq (Except ε α) := fun a b =>
  match a, b with
  | .ok x, .ok y =>
    if h : x = y then isTrue (by rw [h])
    else isFalse (fun hc => by cases hc; exact h rfl)
  | .ok _, .error _ => isFalse (fun hc => by cases hc)
  | .error _, .ok _ => isFalse (fun hc => by cases hc)
  | .error e, .error f =>
    if h : e = f then isTrue (by rw [h])
    else isFalse (fun hc => by cases hc; exact h rfl)

/-! ### Basic lemmas about the set model -/

theorem mem_setInsert {α : Type} [DecidableEq α] (s : List α) (x y : α) :
    y ∈ setInsert s x ↔ y ∈ s ∨ y = x := by
  unfold setInsert
  by_cases h : x ∈ s
  · simp only [if_pos h]
    constructor
    · exact .inl
    · rintro (hy | rfl)
      · exact hy
      · exact h
  · simp [if_neg h]

theorem nodup_setInsert {α : Type} [DecidableEq α] (s : List α) (x : α)
    (h : s.Nodup) : (setInsert s x).Nodup := by
  unfold setInsert
  by_cases hx : x ∈ s
  · simpa [if_pos hx]
  · simpa [if_neg hx, List.nodup_append] using ⟨h, hx⟩

/-- The scenario edge list of the spec (§8) and of the module's own
example block. -/
def exampleLines : List String := ["0 1", "0 2", "1 2", "2 3", "3 3", "0 1"]

/-! ### Lemmas about `loadsnap` -/

theorem edges_to_add_canonical (lines : List String) :
    ∀ e ∈ edges_to_add lines, e.1 < e.2 := by
  unfold edges_to_add
  have main : ∀ (ls : List String) (s : List (Int × Int)),
      (∀ e ∈ s, e.1 < e.2) →
      ∀ e ∈ ls.foldl
        (fun s line =>
          match parseLine line.toList with
          | some (u, v) => if u ≠ v then setInsert s (min u v, max u v) else s
          | none => s) s, e.1 < e.2 := by
    intro ls
    induction ls with
    | nil => intro s hs; simpa using hs
    | cons line rest ih =>
      intro s hs
      simp only [List.foldl_cons]
      apply ih
      cases hp : parseLine line.toList with
      | none => simpa [hp] using hs
      | some uv =>
        obtain ⟨u, v⟩ := uv
        by_cases huv : u ≠ v
        · simp only [hp, if_pos huv]
          intro e he
          rcases (mem_setInsert _ _ _).mp he with h | rfl
          · exact hs e h
          · exact min_lt_max.mpr huv
        · simpa [hp, if_neg huv] using hs
  exact main lines [] (by simp)

theorem mem_all_nodes (lines : List String) (v : Int) :
    v ∈ all_nodes lines ↔ ∃ e ∈ edges_to_add lines, v = e.1 ∨ v = e.2 := by
  unfold all_nodes
  have main : ∀ (es : List (Int × Int)) (s : List Int) (v : Int),
      v ∈ es.foldl (fun s e => setInsert (setInsert s e.1) e.2) s ↔
        v ∈ s ∨ ∃ e ∈ es, v = e.1 ∨ v = e.2 := by
    intro es
    induction es with
    | nil => intro s v; simp
    | cons e rest ih =>
      intro s v
      rw [List.foldl_cons, ih]
      simp only [mem_setInsert, List.mem_cons]
      aesop
  exact (main _ [] v).trans (by simp)

theorem nodup_all_nodes (lines : List String) : (all_nodes lines).Nodup := by
  unfold all_nodes
  have main : ∀ (es : List (Int × Int)) (s : List Int), s.Nodup →
      (es.foldl (fun s e => setInsert (setInsert s e.1) e.2) s).Nodup := by
    intro es
    induction es with
    | nil => intro s hs; simpa using hs
    | cons e rest ih =>
      intro s hs
      exact ih _ (nodup_setInsert _ _ (nodup_setInsert _ _ hs))
  exact main _ [] (by simp)

theorem node_list_perm (lines : List String) :
    (node_list lines).Perm (all_nodes lines) :=
  List.perm_insertionSort _ _

theorem mem_node_list (lines : List String) (v : Int) :
    v ∈ node_list lines ↔ v ∈ all_nodes lines :=
  (node_list_perm lines).mem_iff

theorem node_list_nodup (lines : List String) : (node_list lines).Nodup :=
  ((node_list_perm lines).nodup_iff).mpr (nodup_all_nodes lines)

theorem node_list_sorted_lt (lines : List String) :
    List.Sorted (· < ·) (node_list lines) :=
  (List.sorted_insertionSort _ _).lt_of_le (node_list_nodup lines)

theorem snapAdj_symm (lines : List String) (i j : Nat) :
    snapAdj lines i j = snapAdj lines j i := by
  unfold snapAdj
  rw [min_comm, max_comm]

theorem snapAdj_zero_or_one (lines : List String) (i j : Nat) :
    snapAdj lines i j = 0 ∨ snapAdj lines i j = 1 := by
  unfold snapAdj
  split
  · exact .inr rfl
  · exact .inl rfl

theorem snapAdj_diag (lines : List String) (i : Nat) :
    snapAdj lines i i = 0 := by
  unfold snapAdj
  simp only [min_self, max_self]
  split
  case isTrue h => exact absurd (edges_to_add_canonical lines _ h) (lt_irrefl _)
  case isFalse _ => rfl

/-- C2: the spec's concrete load scenario: node set `{0,1,2,3}`, edge
set `{(0,1),(0,2),(1,2),(2,3)}` (self-loop dropped, duplicate
collapsed), degree diagonal `[2,2,3,1]`. -/
theorem claim_C2 :
    (all_nodes exampleLines).toFinset = ({0, 1, 2, 3} : Finset Int) ∧
    (edges_to_add exampleLines).toFinset =
      ({(0, 1), (0, 2), (1, 2), (2, 3)} : Finset (Int × Int)) ∧
    (edges_to_add exampleLines).Nodup ∧
    [snapDeg exampleLines 0, snapDeg exampleLines 1,
      snapDeg exampleLines 2, snapDeg exampleLines 3] = [2, 2, 3, 1] :=
  ⟨by decide, by decide, by decide, by decide⟩

/-- C8: the node-to-matrix-index mapping of `loadsnap` is a bijection
from the sorted node identifiers to the contiguous indices
`[0, |nodes|)`: row `i` is the `i`-th smallest identifier (the row list
is strictly sorted), the map hits every node, and no two rows share an
identifier. -/
theorem claim_C8 (lines : List String) :
    List.Sorted (· < ·) (node_list lines) ∧
    (∀ v, v ∈ node_list lines ↔ v ∈ all_nodes lines) ∧
    (node_list lines).length = (all_nodes lines).length ∧
    StrictMono (node_list lines).get ∧
    (∀ v ∈ all_nodes lines,
      ∃ i : Fin (node_list lines).length, (node_list lines).get i = v) := by
  refine ⟨node_list_sorted_lt lines, mem_node_list lines,
    (node_list_perm lines).length_eq,
    (node_list_sorted_lt lines).get_strictMono, ?_⟩
  intro v hv
  have : v ∈ node_list lines := (mem_node_list lines v).mpr hv
  obtain ⟨i, hi, hval⟩ := List.mem_iff_getElem.mp this
  exact ⟨⟨i, hi⟩, hval⟩

/-- C10: the node set of `loadsnap` is exactly the set of endpoints of
retained edges (so identifiers that appear only on self-loop or skipped
lines are absent), and consequently every row of the loaded graph has
degree at least 1: no isolated nodes. -/
theorem claim_C10 (lines : List String) :
    (∀ v, v ∈ all_nodes lines ↔
      ∃ e ∈ edges_to_add lines, v = e.1 ∨ v = e.2) ∧
    (∀ i, i < (node_list lines).length → 1 ≤ snapDeg lines i) := by
  refine ⟨mem_all_nodes lines, ?_⟩
  intro i hi
  have hv : (node_list lines)[i] ∈ all_nodes lines :=
    (mem_node_list lines _).mp (List.getElem_mem hi)
  obtain ⟨e, he, hcase⟩ := (mem_all_nodes lines _).mp hv
  have hlt : e.1 < e.2 := edges_to_add_canonical lines e he
  set v := (node_list lines)[i] with hvdef
  -- the opposite endpoint of the incident edge
  have hw : ∃ w, w ∈ all_nodes lines ∧ (min v w, max v w) = e := by
    rcases hcase with hv1 | hv2
    · refine ⟨e.2, (mem_all_nodes lines _).mpr ⟨e, he, .inr rfl⟩, ?_⟩
      rw [hv1, min_eq_left hlt.le, max_eq_right hlt.le]
    · refine ⟨e.1, (mem_all_nodes lines _).mpr ⟨e, he, .inl rfl⟩, ?_⟩
      rw [hv2, min_eq_right hlt.le, max_eq_left hlt.le]
  obtain ⟨w, hwmem, hwe⟩ := hw
  obtain ⟨j, hj, hjval⟩ :=
    List.mem_iff_getElem.mp ((mem_node_list lines w).mpr hwmem)
  have hadj : snapAdj lines i j = 1 := by
    unfold snapAdj
    rw [List.getD_eq_getElem _ _ hi, List.getD_eq_getElem _ _ hj, hjval,
      ← hvdef, hwe]
    simp [he]
  calc 1 = snapAdj lines i j := hadj.symm
    _ ≤ snapDeg lines i :=
      Finset.single_le_sum (fun _ _ => Nat.zero_le _) (Finset.mem_range.mpr hj)

/-- C8 witness: the index mapping of the concrete example load. -/
theorem claim_C8_witness :
    List.Sorted (· < ·) (node_list exampleLines) ∧
    (∀ v, v ∈ node_list exampleLines ↔ v ∈ all_nodes exampleLines) ∧
    (node_list exampleLines).length = (all_nodes exampleLines).length ∧
    StrictMono (node_list exampleLines).get ∧
    (∀ v ∈ all_nodes exampleLines,
      ∃ i : Fin (node_list exampleLines).length,
        (node_list exampleLines).get i = v) :=
  claim_C8 exampleLines

/-- C10 witness: no isolated nodes in the concrete example load. -/
theorem claim_C10_witness :
    (∀ v, v ∈ all_nodes exampleLines ↔
      ∃ e ∈ edges_to_add exampleLines, v = e.1 ∨ v = e.2) ∧
    (∀ i, i < (node_list exampleLines).length →
      1 ≤ snapDeg exampleLines i) :=
  claim_C10 exampleLines

/-! ### Lemmas about `get_neighborhood_indices` -/

theorem foldl_max_le_iff (xs : List Int) (a c : Int) :
    c ≤ xs.foldl max a ↔ c ≤ a ∨ ∃ x ∈ xs, c ≤ x := by
  induction xs generalizing a with
  | nil => simp
  | cons y ys ih =>
    rw [List.foldl_cons, ih]
    simp only [le_max_iff, List.mem_cons]
    aesop

theorem foldl_min_lt_iff (xs : List Int) (a c : Int) :
    xs.foldl min a < c ↔ a < c ∨ ∃ x ∈ xs, x < c := by
  induction xs generalizing a with
  | nil => simp
  | cons y ys ih =>
    rw [List.foldl_cons, ih]
    simp only [min_lt_iff, List.mem_cons]
    aesop

theorem le_maxList_iff (x : Int) (xs : List Int) (c : Int) :
    c ≤ maxList (x :: xs) ↔ ∃ y ∈ x :: xs, c ≤ y := by
  show c ≤ xs.foldl max x ↔ _
  rw [foldl_max_le_iff]
  simp only [List.mem_cons]
  aesop

theorem minList_lt_iff (x : Int) (xs : List Int) (c : Int) :
    minList (x :: xs) < c ↔ ∃ y ∈ x :: xs, y < c := by
  show xs.foldl min x < c ↔ _
  rw [foldl_min_lt_iff]
  simp only [List.mem_cons]
  aesop

theorem mem_foldl_setInsert {α : Type} [DecidableEq α] (l s : List α)
    (x : α) : x ∈ l.foldl setInsert s ↔ x ∈ s ∨ x ∈ l := by
  induction l generalizing s with
  | nil => simp
  | cons y ys ih =>
    rw [List.foldl_cons, ih]
    simp only [mem_setInsert, List.mem_cons]
    aesop

theorem nodup_foldl_setInsert {α : Type} [DecidableEq α] (l s : List α)
    (h : s.Nodup) : (l.foldl setInsert s).Nodup := by
  induction l generalizing s with
  | nil => simpa using h
  | cons y ys ih => exact ih _ (nodup_setInsert _ _ h)

theorem mem_nbrAccum (indices : List Int) (m : CSCMat) (x : Int) :
    x ∈ nbrAccum indices m ↔
      x ∈ indices ∨
      ∃ idx ∈ indices, x ∈ (m.cols.getD idx.toNat []).map Int.ofNat := by
  unfold nbrAccum
  have main : ∀ (l s : List Int),
      x ∈ l.foldl
        (fun s idx =>
          ((m.cols.getD idx.toNat []).map Int.ofNat).foldl setInsert s) s ↔
      x ∈ s ∨ ∃ idx ∈ l, x ∈ (m.cols.getD idx.toNat []).map Int.ofNat := by
    intro l
    induction l with
    | nil => intro s; simp
    | cons y ys ih =>
      intro s
      rw [List.foldl_cons, ih, mem_foldl_setInsert]
      simp only [List.mem_cons]
      aesop
  rw [main, mem_foldl_setInsert]
  simp

theorem nodup_nbrAccum (indices : List Int) (m : CSCMat) :
    (nbrAccum indices m).Nodup := by
  unfold nbrAccum
  have main : ∀ (l s : List Int), s.Nodup →
      (l.foldl
        (fun s idx =>
          ((m.cols.getD idx.toNat []).map Int.ofNat).foldl setInsert s)
        s).Nodup := by
    intro l
    induction l with
    | nil => intro s hs; simpa using hs
    | cons y ys ih => intro s hs; exact ih _ (nodup_foldl_setInsert _ _ hs)
  exact main _ _ (nodup_foldl_setInsert _ _ List.nodup_nil)

/-- A member of a stored column of a valid CSC matrix is a legal row
index. -/
theorem valid_col_mem {m : CSCMat} (hm : m.Valid) {idx : Nat} {r : Nat}
    (hr : r ∈ m.cols.getD idx []) : r < m.n := by
  by_cases h : idx < m.cols.length
  · rw [List.getD_eq_getElem _ _ h] at hr
    exact hm _ (List.getElem_mem h) _ hr
  · rw [List.getD_eq_default _ _ (le_of_not_lt h)] at hr
    simp at hr

/-- C4: on a valid CSC matrix and seeds inside `[0, matrixSize)`,
`get_neighborhood_indices` succeeds with a sorted duplicate-free list
that contains every seed and contains no index outside
`[0, matrixSize)`; on the empty seed list it returns `[]` for every
matrix whatsoever. -/
theorem claim_C4 (indices : List Int) (m : CSCMat) (hm : m.Valid)
    (hidx : ∀ s ∈ indices, 0 ≤ s ∧ s < (m.n : Int)) :
    (∃ l, get_neighborhood_indices indices m = .ok l ∧
      List.Sorted (· ≤ ·) l ∧ l.Nodup ∧
      (∀ s ∈ indices, s ∈ l) ∧
      (∀ x ∈ l, 0 ≤ x ∧ x < (m.n : Int))) ∧
    (∀ m' : CSCMat, get_neighborhood_indices [] m' = .ok []) := by
  constructor
  · cases indices with
    | nil =>
      exact ⟨[], by rfl, by simp, by simp, by simp, by simp⟩
    | cons y ys =>
      refine ⟨List.insertionSort (· ≤ ·) (nbrAccum (y :: ys) m), ?_, ?_, ?_, ?_, ?_⟩
      · have h1 : ¬((y :: ys) ≠ [] ∧ (m.n : Int) ≤ maxList (y :: ys)) := by
          rintro ⟨-, hle⟩
          obtain ⟨z, hz, hzle⟩ := (le_maxList_iff y ys _).mp hle
          exact absurd (hidx z hz).2 (not_lt.mpr hzle)
        have h2 : ¬((y :: ys) ≠ [] ∧ minList (y :: ys) < 0) := by
          rintro ⟨-, hlt⟩
          obtain ⟨z, hz, hzlt⟩ := (minList_lt_iff y ys _).mp hlt
          exact absurd (hidx z hz).1 (not_le.mpr hzlt)
        simp only [get_neighborhood_indices, if_neg h1, if_neg h2,
          if_neg (by simp : ¬(y :: ys = []))]
      · exact List.sorted_insertionSort _ _
      · exact ((List.perm_insertionSort _ _).nodup_iff).mpr
          (nodup_nbrAccum _ _)
      · intro s hs
        exact (List.perm_insertionSort _ _).mem_iff.mpr
          ((mem_nbrAccum _ _ _).mpr (.inl hs))
      · intro x hx
        have hx' := (List.perm_insertionSort _ _).mem_iff.mp hx
        rcases (mem_nbrAccum _ _ _).mp hx' with h | ⟨idx, -, hmem⟩
        · exact hidx x h
        · obtain ⟨r, hr, rfl⟩ := List.mem_map.mp hmem
          exact ⟨Int.ofNat_nonneg r,
            Int.ofNat_lt.mpr (valid_col_mem hm hr)⟩
  · intro m'
    rfl

/-- C4 witness: a concrete valid run on a 4-node matrix. -/
theorem claim_C4_witness :
    (CSCMat.mk [[1, 2], [0, 2], [0, 1, 3], [2]]).Valid ∧
    (∀ s ∈ [(0 : Int)],
      0 ≤ s ∧ s < ((CSCMat.mk [[1, 2], [0, 2], [0, 1, 3], [2]]).n : Int)) ∧
    ((∃ l, get_neighborhood_indices [(0 : Int)]
        (CSCMat.mk [[1, 2], [0, 2], [0, 1, 3], [2]]) = .ok l ∧
      List.Sorted (· ≤ ·) l ∧ l.Nodup ∧
      (∀ s ∈ [(0 : Int)], s ∈ l) ∧
      (∀ x ∈ l, 0 ≤ x ∧
        x < ((CSCMat.mk [[1, 2], [0, 2], [0, 1, 3], [2]]).n : Int))) ∧
    (∀ m' : CSCMat, get_neighborhood_indices [] m' = .ok [])) :=
  ⟨by unfold CSCMat.Valid CSCMat.n; decide, by decide,
    claim_C4 [(0 : Int)] (CSCMat.mk [[1, 2], [0, 2], [0, 1, 3], [2]])
      (by unfold CSCMat.Valid CSCMat.n; decide) (by decide)⟩

/-- C5: `get_neighborhood_indices` fails fast: any seed `≥ matrixSize`
yields the `indexOutOfBounds` error (this check runs first), a negative
seed among in-bounds seeds yields the distinct `invalidArgument` error,
and in either case the function returns an error and no result list. -/
theorem claim_C5 (indices : List Int) (m : CSCMat) :
    ((∃ s ∈ indices, (m.n : Int) ≤ s) →
      get_neighborhood_indices indices m = .error .indexOutOfBounds) ∧
    ((∀ s ∈ indices, s < (m.n : Int)) → (∃ s ∈ indices, s < 0) →
      get_neighborhood_indices indices m = .error .invalidArgument) ∧
    PyErr.indexOutOfBounds ≠ PyErr.invalidArgument := by
  refine ⟨?_, ?_, by decide⟩
  · rintro ⟨s, hs, hle⟩
    cases indices with
    | nil => cases hs
    | cons y ys =>
      have h1 : (y :: ys) ≠ [] ∧ (m.n : Int) ≤ maxList (y :: ys) :=
        ⟨by simp, (le_maxList_iff y ys _).mpr ⟨s, hs, hle⟩⟩
      simp only [get_neighborhood_indices, if_pos h1]
  · intro hub
    rintro ⟨s, hs, hneg⟩
    cases indices with
    | nil => cases hs
    | cons y ys =>
      have h1 : ¬((y :: ys) ≠ [] ∧ (m.n : Int) ≤ maxList (y :: ys)) := by
        rintro ⟨-, hle⟩
        obtain ⟨z, hz, hzle⟩ := (le_maxList_iff y ys _).mp hle
        exact absurd (hub z hz) (not_lt.mpr hzle)
      have h2 : (y :: ys) ≠ [] ∧ minList (y :: ys) < 0 :=
        ⟨by simp, (minList_lt_iff y ys _).mpr ⟨s, hs, hneg⟩⟩
      simp only [get_neighborhood_indices, if_neg h1, if_pos h2]

/-- C5 witness: the two error kinds on a concrete 2-node matrix. -/
theorem claim_C5_witness :
    get_neighborhood_indices [(5 : Int)] (CSCMat.mk [[1], [0]]) =
      .error .indexOutOfBounds ∧
    get_neighborhood_indices [(-1 : Int)] (CSCMat.mk [[1], [0]]) =
      .error .invalidArgument :=
  ⟨(claim_C5 [(5 : Int)] (CSCMat.mk [[1], [0]])).1 ⟨5, by decide, by decide⟩,
    (claim_C5 [(-1 : Int)] (CSCMat.mk [[1], [0]])).2.1
      (by decide) ⟨-1, by decide, by decide⟩⟩

/-! ### Lemmas about the component machinery -/

theorem mergeLab_length (lab : List Nat) (u v : Nat) :
    (mergeLab lab u v).length = lab.length := by
  unfold mergeLab
  split
  · rfl
  · exact List.length_map _ _

theorem labels_length (n : Nat) (es : List (Nat × Nat)) :
    (labels n es).length = n := by
  unfold labels
  have main : ∀ (l : List (Nat × Nat)) (lab : List Nat),
      (l.foldl (fun lab e => mergeLab lab e.1 e.2) lab).length =
        lab.length := by
    intro l
    induction l with
    | nil => intro lab; rfl
    | cons e rest ih => intro lab; rw [List.foldl_cons, ih, mergeLab_length]
  rw [main, List.length_range]

theorem labels_append (n : Nat) (es : List (Nat × Nat)) (e : Nat × Nat) :
    labels n (es ++ [e]) = mergeLab (labels n es) e.1 e.2 := by
  unfold labels
  rw [List.foldl_append]
  rfl

theorem comps_length (n : Nat) (es : List (Nat × Nat)) :
    (comps n es).length = (labels n es).dedup.length :=
  List.length_map _ _

theorem comps_getD (n : Nat) (es : List (Nat × Nat)) (i : Nat)
    (hi : i < (comps n es).length) :
    (comps n es).getD i [] =
      (List.range n).filter
        (fun x => (labels n es).getD x 0 == (labels n es).dedup.getD i 0) := by
  unfold comps at hi ⊢
  rw [List.getD_eq_getElem _ _ hi, List.getElem_map,
    List.getD_eq_getElem _ _ (by simpa using hi)]

theorem mem_comps_block (n : Nat) (es : List (Nat × Nat)) (i x : Nat)
    (hi : i < (comps n es).length) :
    x ∈ (comps n es).getD i [] ↔
      x < n ∧ (labels n es).getD x 0 = (labels n es).dedup.getD i 0 := by
  rw [comps_getD n es i hi]
  simp [List.mem_filter, List.mem_range]

theorem comps_block_nonempty (n : Nat) (es : List (Nat × Nat)) (i : Nat)
    (hi : i < (comps n es).length) :
    (comps n es).getD i [] ≠ [] := by
  have hlen : i < (labels n es).dedup.length := by
    rw [← comps_length n es]; exact hi
  have hmem : (labels n es).dedup.getD i 0 ∈ labels n es := by
    rw [List.getD_eq_getElem _ _ hlen]
    exact List.mem_dedup.mp (List.getElem_mem hlen)
  obtain ⟨x, hx, hval⟩ := List.mem_iff_getElem.mp hmem
  intro hempty
  have hxmem : x ∈ (comps n es).getD i [] := by
    rw [mem_comps_block n es i x hi]
    constructor
    · rw [← labels_length n es]; exact hx
    · rw [List.getD_eq_getElem _ _ hx]; exact hval
  rw [hempty] at hxmem
  cases hxmem

theorem comps_length_le (n : Nat) (es : List (Nat × Nat)) :
    (comps n es).length ≤ n := by
  rw [comps_length]
  calc (labels n es).dedup.length ≤ (labels n es).length :=
        (List.dedup_sublist _).length_le
    _ = n := labels_length n es

theorem comps_length_pos (n : Nat) (es : List (Nat × Nat)) (h : 1 ≤ n) :
    1 ≤ (comps n es).length := by
  rw [comps_length]
  have hne : labels n es ≠ [] := by
    intro hc
    have hl := labels_length n es
    rw [hc] at hl
    simp only [List.length_nil] at hl
    omega
  have hdne : (labels n es).dedup ≠ [] := by
    intro hc
    obtain ⟨x, hx⟩ := List.exists_mem_of_ne_nil _ hne
    have := List.mem_dedup.mpr hx
    rw [hc] at this
    cases this
  exact List.length_pos.mpr hdne

theorem dedup_getD_ne (l : List Nat) {i j : Nat} (hi : i < l.dedup.length)
    (hj : j < l.dedup.length) (hij : i ≠ j) :
    l.dedup.getD i 0 ≠ l.dedup.getD j 0 := by
  rw [List.getD_eq_getElem _ _ hi, List.getD_eq_getElem _ _ hj]
  intro hc
  exact hij (((List.nodup_dedup l).getElem_inj_iff).mp hc)

theorem mergeLab_dedup_length (lab : List Nat) {u v : Nat}
    (hu : u < lab.length) (hv : v < lab.length)
    (hne : lab.getD u 0 ≠ lab.getD v 0) :
    (mergeLab lab u v).dedup.length + 1 = lab.dedup.length := by
  have hlu : lab.getD u 0 ∈ lab := by
    rw [List.getD_eq_getElem _ _ hu]; exact List.getElem_mem hu
  have hlv : lab.getD v 0 ∈ lab := by
    rw [List.getD_eq_getElem _ _ hv]; exact List.getElem_mem hv
  unfold mergeLab
  rw [if_neg hne]
  have himg :
      (lab.map (fun t => if t = lab.getD v 0 then lab.getD u 0 else t)).toFinset
        = lab.toFinset.erase (lab.getD v 0) := by
    ext x
    simp only [List.mem_toFinset, List.mem_map, Finset.mem_erase]
    constructor
    · rintro ⟨t, ht, rfl⟩
      by_cases h : t = lab.getD v 0
      · rw [if_pos h]
        exact ⟨hne, hlu⟩
      · rw [if_neg h]
        exact ⟨h, ht⟩
    · rintro ⟨hx, hxm⟩
      exact ⟨x, hxm, if_neg hx⟩
  rw [← List.card_toFinset, ← List.card_toFinset, himg,
    Finset.card_erase_of_mem (List.mem_toFinset.mpr hlv)]
  have hpos : 0 < lab.toFinset.card :=
    Finset.card_pos.mpr ⟨_, List.mem_toFinset.mpr hlv⟩
  omega

theorem getD_mem_of_ne_nil {l : List Nat} (h : l ≠ []) (r : Nat) :
    l.getD (r % l.length) 0 ∈ l := by
  have hlen : 0 < l.length := List.length_pos.mpr h
  rw [List.getD_eq_getElem _ _ (Nat.mod_lt _ hlen)]
  exact List.getElem_mem _

theorem repairStep_spec (d : Draws) (k n : Nat) (es : List (Nat × Nat))
    (h2 : 2 ≤ (comps n es).length) :
    ∃ i j, i < (comps n es).length ∧ j < (comps n es).length ∧ i ≠ j ∧
      (repairStep d k (comps n es)).1 ∈ (comps n es).getD i [] ∧
      (repairStep d k (comps n es)).2 ∈ (comps n es).getD j [] := by
  have hm : 0 < (comps n es).length := by omega
  have hi : d.pickA k % (comps n es).length < (comps n es).length :=
    Nat.mod_lt _ hm
  have hj0 : d.pickB k % ((comps n es).length - 1) <
      (comps n es).length - 1 := Nat.mod_lt _ (by omega)
  refine ⟨d.pickA k % (comps n es).length,
    if d.pickB k % ((comps n es).length - 1) <
        d.pickA k % (comps n es).length
    then d.pickB k % ((comps n es).length - 1)
    else d.pickB k % ((comps n es).length - 1) + 1,
    hi, ?_, ?_, ?_, ?_⟩
  · split <;> omega
  · split <;> omega
  · simp only [repairStep]
    exact getD_mem_of_ne_nil (comps_block_nonempty n es _ hi) _
  · simp only [repairStep]
    exact getD_mem_of_ne_nil
      (comps_block_nonempty n es _ (by split <;> omega)) _

/-- The edge chosen by a repair step joins two distinct components:
its endpoints are distinct nodes of `range n`, and their component
labels differ. -/
theorem repairStep_wf (d : Draws) (k n : Nat) (es : List (Nat × Nat))
    (h2 : 2 ≤ (comps n es).length) :
    (repairStep d k (comps n es)).1 < n ∧
    (repairStep d k (comps n es)).2 < n ∧
    (labels n es).getD (repairStep d k (comps n es)).1 0 ≠
      (labels n es).getD (repairStep d k (comps n es)).2 0 := by
  obtain ⟨i, j, hi, hj, hij, hu, hv⟩ := repairStep_spec d k n es h2
  obtain ⟨hun, hulab⟩ := (mem_comps_block n es i _ hi).mp hu
  obtain ⟨hvn, hvlab⟩ := (mem_comps_block n es j _ hj).mp hv
  refine ⟨hun, hvn, ?_⟩
  rw [hulab, hvlab]
  exact dedup_getD_ne _ (by rw [← comps_length]; exact hi)
    (by rw [← comps_length]; exact hj) hij

/-- Adding the repair-step edge merges exactly two components: the
component count drops by exactly one. -/
theorem repair_step_card (d : Draws) (k n : Nat) (es : List (Nat × Nat))
    (h2 : 2 ≤ (comps n es).length) :
    (comps n (es ++ [repairStep d k (comps n es)])).length + 1 =
      (comps n es).length := by
  obtain ⟨hun, hvn, hne⟩ := repairStep_wf d k n es h2
  rw [comps_length, comps_length, labels_append]
  exact mergeLab_dedup_length (labels n es)
    (by rw [labels_length]; exact hun)
    (by rw [labels_length]; exact hvn) hne

/-- The repair loop drives the component count to 1 and performs
exactly (initial component count - 1) merges, provided the fuel covers
that many iterations. -/
theorem repair_spec (d : Draws) (n : Nat) :
    ∀ (fuel : Nat) (es : List (Nat × Nat)) (k : Nat),
      1 ≤ (comps n es).length → (comps n es).length ≤ fuel + 1 →
      (comps n (repair d n fuel es k).1).length = 1 ∧
      (repair d n fuel es k).2 = k + ((comps n es).length - 1) := by
  intro fuel
  induction fuel with
  | zero =>
    intro es k h1 h2
    refine ⟨?_, ?_⟩
    · show (comps n es).length = 1
      omega
    · show k = k + ((comps n es).length - 1)
      omega
  | succ fuel ih =>
    intro es k h1 h2
    by_cases hle : (comps n es).length ≤ 1
    · have heq : repair d n (fuel + 1) es k = (es, k) := by
        simp only [repair, if_pos hle]
      rw [heq]
      refine ⟨?_, ?_⟩
      · show (comps n es).length = 1
        omega
      · show k = k + ((comps n es).length - 1)
        omega
    · have h2' : 2 ≤ (comps n es).length := by omega
      have hstep : repair d n (fuel + 1) es k =
          repair d n fuel (es ++ [repairStep d k (comps n es)]) (k + 1) := by
        simp only [repair, if_neg hle]
      have hcard := repair_step_card d k n es h2'
      have ih' := ih (es ++ [repairStep d k (comps n es)]) (k + 1)
        (by omega) (by omega)
      rw [hstep]
      exact ⟨ih'.1, by rw [ih'.2]; omega⟩

/-- Well-formed edge lists: endpoints inside `range n` and distinct. -/
def EdgesWf (n : Nat) (es : List (Nat × Nat)) : Prop :=
  ∀ e ∈ es, e.1 < n ∧ e.2 < n ∧ e.1 ≠ e.2

theorem repair_edgesWf (d : Draws) (n : Nat) :
    ∀ (fuel : Nat) (es : List (Nat × Nat)) (k : Nat), EdgesWf n es →
      EdgesWf n (repair d n fuel es k).1 := by
  intro fuel
  induction fuel with
  | zero => intro es k h; exact h
  | succ fuel ih =>
    intro es k h
    by_cases hle : (comps n es).length ≤ 1
    · have heq : repair d n (fuel + 1) es k = (es, k) := by
        simp only [repair, if_pos hle]
      rw [heq]
      exact h
    · have h2' : 2 ≤ (comps n es).length := by omega
      have hstep : repair d n (fuel + 1) es k =
          repair d n fuel (es ++ [repairStep d k (comps n es)]) (k + 1) := by
        simp only [repair, if_neg hle]
      rw [hstep]
      apply ih
      intro e he
      rcases List.mem_append.mp he with h1 | h1
      · exact h e h1
      · obtain ⟨hun, hvn, hne⟩ := repairStep_wf d k n es h2'
        rcases List.mem_singleton.mp h1 with rfl
        refine ⟨hun, hvn, ?_⟩
        intro hc
        rw [hc] at hne
        exact hne rfl

theorem mem_pairList (n : Nat) (e : Nat × Nat) :
    e ∈ pairList n ↔ e.1 < e.2 ∧ e.2 < n := by
  unfold pairList
  simp only [List.mem_flatMap, List.mem_map, List.mem_range, List.mem_range']
  constructor
  · rintro ⟨i, hi, j, ⟨t, ht, rfl⟩, rfl⟩
    simp only
    omega
  · rintro ⟨h1, h2⟩
    exact ⟨e.1, by omega, e.2, ⟨e.2 - (e.1 + 1), by omega, by omega⟩, rfl⟩

theorem initEdges_wf (n : Nat) (p : ℚ) (d : Draws) :
    EdgesWf n (initEdges n p d) := by
  intro e he
  have h := (mem_pairList n e).mp (List.mem_filter.mp he).1
  omega

/-- Successful-run normal form of `create_connected_graph`. -/
theorem create_ok (n : Nat) (p : ℚ) (d : Draws)
    (h1 : 1 ≤ n) (h2 : 0 ≤ p) (h3 : p ≤ 1) :
    create_connected_graph n p d =
      .ok ⟨List.range n, (repair d n n (initEdges n p d) 0).1,
        (repair d n n (initEdges n p d) 0).2⟩ := by
  unfold create_connected_graph
  rw [if_neg (not_not.mpr ⟨h2, h3⟩), if_neg (by omega)]

/-! ### Concrete draw oracles for witnesses -/

/-- The all-zero draw oracle: every `random.random()` call returns the
legal float value `0.0`. -/
def zeroDraws : Draws :=
  ⟨fun _ _ => 0, fun _ => 0, fun _ => 0, fun _ => 0, fun _ => 0⟩

/-- A draw oracle whose `random.random()` values are all `1/2`. -/
def halfDraws : Draws :=
  ⟨fun _ _ => ⟨1, 2, by decide, Nat.coprime_one_left 2⟩,
    fun k => k, fun k => k + 1, fun k => 2 * k, fun k => 3 * k⟩

/-! ### Claims about `create_connected_graph` -/

/-- C1: for every `n ≥ 1`, every `p ∈ [0, 1]` and every sequence of
random draws, the graph produced by `create_connected_graph` is
connected (a single connected component) and has exactly the `n`
contiguous nodes `0..n-1` (all edges staying inside them). -/
theorem claim_C1 (n : Nat) (p : ℚ) (d : Draws)
    (h1 : 1 ≤ n) (h2 : 0 ≤ p) (h3 : p ≤ 1) :
    ∃ r, create_connected_graph n p d = .ok r ∧
      is_connected n r.edges = true ∧
      (comps n r.edges).length = 1 ∧
      r.nodes = List.range n ∧ r.nodes.length = n ∧
      EdgesWf n r.edges := by
  have hfuel : (comps n (initEdges n p d)).length ≤ n + 1 := by
    have := comps_length_le n (initEdges n p d)
    omega
  have hconn := (repair_spec d n n (initEdges n p d) 0
    (comps_length_pos n _ h1) hfuel).1
  refine ⟨_, create_ok n p d h1 h2 h3, ?_, hconn, rfl, by simp, ?_⟩
  · unfold is_connected
    rw [hconn]
    rfl
  · exact repair_edgesWf d n n _ 0 (initEdges_wf n p d)

/-- C1 witness: a concrete run with `n = 2`, `p = 1`. -/
theorem claim_C1_witness :
    1 ≤ 2 ∧ (0 : ℚ) ≤ 1 ∧ (1 : ℚ) ≤ 1 ∧
    ∃ r, create_connected_graph 2 1 zeroDraws = .ok r ∧
      is_connected 2 r.edges = true ∧
      (comps 2 r.edges).length = 1 ∧
      r.nodes = List.range 2 ∧ r.nodes.length = 2 ∧
      EdgesWf 2 r.edges :=
  ⟨by decide, by decide, by decide,
    claim_C1 2 1 zeroDraws (by decide) (by decide) (by decide)⟩

/-- C3 as stated is false on the code: the sampling test is
`random.random() <= edge_probability` and `random.random()` may return
the legal float value `0.0`, so with `p = 0` the all-zero draw sequence
samples every pair as an edge.  On `n = 2` the sampling phase produces
the edge `(0, 1)` and the repair loop then performs `0`, not
`n - 1 = 1`, merges. -/
theorem claim_C3_counterexample :
    ((0 : ℚ) ≤ zeroDraws.edge 0 1 ∧ zeroDraws.edge 0 1 < 1) ∧
    initEdges 2 0 zeroDraws = [(0, 1)] ∧
    create_connected_graph 2 0 zeroDraws =
      .ok ⟨[0, 1], [(0, 1)], 0⟩ :=
  ⟨⟨by decide, by decide⟩, by decide, by decide⟩

/-- C3 (amended): when `p = 0`, for every sequence of draws in which
every `random.random()` value is strictly positive (which is all draw
sequences except the probability-zero set containing a `0.0` draw), the
Bernoulli sampling phase includes no edge and the repair loop performs
exactly `n - 1` merges. -/
theorem claim_C3 (n : Nat) (d : Draws) (h1 : 1 ≤ n)
    (hd : ∀ i j, 0 < d.edge i j) :
    initEdges n 0 d = [] ∧
    ∃ r, create_connected_graph n 0 d = .ok r ∧ r.merges = n - 1 := by
  have hinit : initEdges n 0 d = [] := by
    unfold initEdges
    rw [List.filter_eq_nil_iff]
    intro e he
    simp only [decide_eq_true_eq]
    exact not_le.mpr (hd e.1 e.2)
  have hcomps : (comps n []).length = n := by
    rw [comps_length]
    show (List.range n).dedup.length = n
    rw [List.dedup_eq_self.mpr (List.nodup_range n), List.length_range]
  refine ⟨hinit, _, create_ok n 0 d h1 (le_refl 0) (by norm_num), ?_⟩
  show (repair d n n (initEdges n 0 d) 0).2 = n - 1
  have hcount := (repair_spec d n n (initEdges n 0 d) 0
    (comps_length_pos n _ h1)
    (by have := comps_length_le n (initEdges n 0 d); omega)).2
  rw [hcount, hinit, hcomps]
  omega

/-- C3 witness (for the amended claim): `n = 3` with all draws `1/2`. -/
theorem claim_C3_witness :
    1 ≤ 3 ∧ (∀ i j, 0 < halfDraws.edge i j) ∧
    (initEdges 3 0 halfDraws = [] ∧
      ∃ r, create_connected_graph 3 0 halfDraws = .ok r ∧
        r.merges = 3 - 1) :=
  ⟨by decide, by intro i j; simp only [halfDraws]; decide,
    claim_C3 3 halfDraws (by decide)
      (by intro i j; simp only [halfDraws]; decide)⟩

/-- C6: each iteration of the connectivity-repair loop adds an edge
between nodes of two distinct connected components, strictly
decreasing the component count by exactly one; hence with any fuel of
at least (component count - 1) iterations it performs exactly
(component count - 1) merges. -/
theorem claim_C6 (d : Draws) (n k : Nat) (es : List (Nat × Nat))
    (h2 : 2 ≤ (comps n es).length) :
    (∃ i j, i < (comps n es).length ∧ j < (comps n es).length ∧ i ≠ j ∧
      (repairStep d k (comps n es)).1 ∈ (comps n es).getD i [] ∧
      (repairStep d k (comps n es)).2 ∈ (comps n es).getD j []) ∧
    (comps n (es ++ [repairStep d k (comps n es)])).length + 1 =
      (comps n es).length ∧
    ∀ fuel, (comps n es).length ≤ fuel + 1 →
      (repair d n fuel es k).2 = k + ((comps n es).length - 1) :=
  ⟨repairStep_spec d k n es h2, repair_step_card d k n es h2,
    fun fuel hf => (repair_spec d n fuel es k (by omega) hf).2⟩

/-- C6 witness: the first repair iteration on the empty 3-node graph. -/
theorem claim_C6_witness :
    2 ≤ (comps 3 []).length ∧
    ((∃ i j, i < (comps 3 []).length ∧ j < (comps 3 []).length ∧ i ≠ j ∧
      (repairStep halfDraws 0 (comps 3 [])).1 ∈ (comps 3 []).getD i [] ∧
      (repairStep halfDraws 0 (comps 3 [])).2 ∈ (comps 3 []).getD j []) ∧
    (comps 3 ([] ++ [repairStep halfDraws 0 (comps 3 [])])).length + 1 =
      (comps 3 []).length ∧
    ∀ fuel, (comps 3 []).length ≤ fuel + 1 →
      (repair halfDraws 3 fuel [] 0).2 = 0 + ((comps 3 []).length - 1)) :=
  ⟨by decide, claim_C6 halfDraws 3 0 [] (by decide)⟩

/-- C9: `create_connected_graph` rejects `n < 1` and `p` outside
`[0, 1]` with the `invalidArgument` error, returning it before any
graph construction. -/
theorem claim_C9 (n : Nat) (p : ℚ) (d : Draws)
    (h : n < 1 ∨ p < 0 ∨ 1 < p) :
    create_connected_graph n p d = .error .invalidArgument := by
  unfold create_connected_graph
  by_cases hp : 0 ≤ p ∧ p ≤ 1
  · rw [if_neg (not_not.mpr hp)]
    have hn : n < 1 := by
      rcases h with h | h | h
      · exact h
      · exact absurd hp.1 (not_le.mpr h)
      · exact absurd hp.2 (not_le.mpr h)
    rw [if_pos hn]
  · rw [if_pos hp]

/-- C9 witness: the rejected inputs `n = 0` and `p = 2`. -/
theorem claim_C9_witness :
    create_connected_graph 0 1 zeroDraws = .error .invalidArgument ∧
    create_connected_graph 2 2 zeroDraws = .error .invalidArgument :=
  ⟨claim_C9 0 1 zeroDraws (.inl (by decide)),
    claim_C9 2 2 zeroDraws (.inr (.inr (by decide)))⟩

/-- C7: the adjacency matrices built by `loadsnap` and by
`create_connected_graph` are symmetric, have only 0/1 entries, and
have an all-zero diagonal. -/
theorem claim_C7 (lines : List String) (n : Nat) (p : ℚ) (d : Draws)
    (r : GenResult) (hr : create_connected_graph n p d = .ok r) :
    (∀ i j, snapAdj lines i j = snapAdj lines j i ∧
      (snapAdj lines i j = 0 ∨ snapAdj lines i j = 1) ∧
      snapAdj lines i i = 0) ∧
    (∀ i j, genAdj r.edges i j = genAdj r.edges j i ∧
      (genAdj r.edges i j = 0 ∨ genAdj r.edges i j = 1) ∧
      genAdj r.edges i i = 0) := by
  have hwf : EdgesWf n r.edges := by
    unfold create_connected_graph at hr
    by_cases hp : 0 ≤ p ∧ p ≤ 1
    · rw [if_neg (not_not.mpr hp)] at hr
      by_cases hn : n < 1
      · rw [if_pos hn] at hr; cases hr
      · rw [if_neg hn] at hr
        cases hr
        exact repair_edgesWf d n n _ 0 (initEdges_wf n p d)
    · rw [if_pos hp] at hr; cases hr
  refine ⟨fun i j => ⟨snapAdj_symm lines i j, snapAdj_zero_or_one lines i j,
    snapAdj_diag lines i⟩, fun i j => ⟨?_, ?_, ?_⟩⟩
  · unfold genAdj
    exact if_congr or_comm rfl rfl
  · unfold genAdj
    split
    · exact .inr rfl
    · exact .inl rfl
  · unfold genAdj
    rw [if_neg]
    rintro (hmem | hmem) <;> exact absurd rfl (hwf _ hmem).2.2

/-- C7 witness: the generated 2-node graph with `p = 1` together with
the example edge list. -/
theorem claim_C7_witness :
    ∃ r, create_connected_graph 2 1 zeroDraws = .ok r ∧
      (∀ i j, snapAdj exampleLines i j = snapAdj exampleLines j i ∧
        (snapAdj exampleLines i j = 0 ∨ snapAdj exampleLines i j = 1) ∧
        snapAdj exampleLines i i = 0) ∧
      (∀ i j, genAdj r.edges i j = genAdj r.edges j i ∧
        (genAdj r.edges i j = 0 ∨ genAdj r.edges i j = 1) ∧
        genAdj r.edges i i = 0) :=
  ⟨⟨[0, 1], [(0, 1)], 0⟩, by decide,
    claim_C7 exampleLines 2 1 zeroDraws _ (by decide)⟩

end AAPPR
